import Mathlib

/-!
Top-level floorplan (`floorplan/top_floorplan.hpp`)

A shallow embedding of the inline code of `top_floorplan.hpp`:

* `IlpTopFloorplanProblem::crossVariable`, the packed triangular index of the
  pairwise crossing variables of a net;
* the lookups of `TopFloorplanProblemResult` (`pinAssignSol`,
  `targetModuleHeight`, `externalNetBBox`).

Containers are lists, `std::map` is an association list searched by key, a
checked lookup (`.at`) returns in `Except`, and a method that may write to the
object returns the object it leaves behind.
-/

namespace MagicalFlow

/-! ## Failures -/

/-- The two ways the inline code can fail: `std::out_of_range` thrown by a
checked lookup `.at`, and a failed `Assert`. -/
inductive Failure where
  | outOfRange
  | assertFailed
  deriving DecidableEq, Repr

/-- Checked element access `std::vector::at`. -/
def vectorAt {α : Type} (v : List α) (idx : Nat) : Except Failure α :=
  match v[idx]? with
  | some x => Except.ok x
  | none => Except.error Failure.outOfRange

/-! ## `std::map` keyed by `std::string` -/

/-- The entries of a `std::map<std::string, V>`; a key is looked up from the
front. -/
abbrev StdMap (V : Type) : Type := List (String × V)

namespace StdMap

/-- The test `m.find(key) == m.end()`. -/
def findIsEnd {V : Type} (m : StdMap V) (key : String) : Bool :=
  (m.lookup key).isNone

/-- Checked lookup `m.at(key)`: throws `std::out_of_range` on a missing key. -/
def atKey {V : Type} (m : StdMap V) (key : String) : Except Failure V :=
  match m.lookup key with
  | some v => Except.ok v
  | none => Except.error Failure.outOfRange

/-- Subscript `m[key]`: yields the stored value, and on a missing key first
inserts a value-initialised entry. The second component is the map afterwards. -/
def subscript {V : Type} (dflt : V) (m : StdMap V) (key : String) : V × StdMap V :=
  match m.lookup key with
  | some v => (v, m)
  | none => (dflt, m ++ [(key, dflt)])

end StdMap

/-! ## The problem -/

/-- The enum `FpPinType`. -/
inductive FpPinType where
  | ASYM
  | SYM_PRI
  | SYM_SCE
  | OTHER
  deriving DecidableEq, Repr

/-- The enum `FpPinAssignType`. -/
inductive FpPinAssignType where
  | LEFT
  | RIGHT
  | UNDEFINED
  deriving DecidableEq, Repr

/-- The struct `PinIdx`. -/
structure PinIdx where
  pinType : FpPinType
  idx : Nat
  cellIdx : Int
  name : String := ""
  assign : FpPinAssignType := FpPinAssignType.UNDEFINED
  deriving DecidableEq, Repr

/-- The struct `FpNet`. -/
structure FpNet where
  pins : List Nat
  deriving DecidableEq, Repr

/-- Modelled from the spec: `Box<LocType>` of `util/Box.h`, which is not part
of the sources at hand. A box is its lower-left and upper-right corner, it is
valid when the corners are in order, and the default-constructed box is the
explicitly invalid sentinel (lower corner at the largest coordinate, upper
corner at the smallest) that the `Assert` in `externalNetBBox` relies on. -/
structure Box where
  xLo : Int := 2147483647
  yLo : Int := 2147483647
  xHi : Int := -2147483648
  yHi : Int := -2147483648
  deriving DecidableEq, Repr

/-- The method `Box::valid` (see `Box`). -/
def Box.valid (b : Box) : Bool :=
  decide (b.xLo ≤ b.xHi) && decide (b.yLo ≤ b.yHi)

/-- The class `TopFloorplanProblem`; the member initialisers are the defaults. -/
structure TopFloorplanProblem where
  _pinIdx : List PinIdx := []
  _cellBBox : List Box := []
  _cellNames : List String := []
  _resourcePerLen : Int := 10000
  _nets : List FpNet := []
  _numAsymPins : Nat := 0
  _numSymPriPins : Nat := 0
  _numSymSecPins : Nat := 0
  deriving DecidableEq, Repr

/-- The method `setPinResourceLen`. -/
def TopFloorplanProblem.setPinResourceLen (self : TopFloorplanProblem)
    (pinResourceLen : Int) : TopFloorplanProblem :=
  { self with _resourcePerLen := pinResourceLen }

/-! ## The crossing-variable index -/

/-- The accumulation loop of `crossVariable`,
`for (i = 0; i < firstPinIdx; ++i) offset += (numPins - i - 1);`
over the natural numbers. -/
def offsetLoop (numPins firstPinIdx : Nat) : Nat :=
  (List.range firstPinIdx).foldl (fun offset i => offset + (numPins - i - 1)) 0

/-- The flat index `idx = offset + (secondPinIdx - firstPinIdx - 1)` of
`crossVariable` for an ordered pair, over the natural numbers. -/
def crossIndex (numPins firstPinIdx secondPinIdx : Nat) : Nat :=
  offsetLoop numPins firstPinIdx + (secondPinIdx - firstPinIdx - 1)

/-- The index of the spec, in its words: `offset(i) = Σ_{t=0}^{i-1} (k−t−1)`. -/
def specOffset (k i : Nat) : Nat :=
  ∑ t in Finset.range i, (k - t - 1)

/-- The index of the spec, in its words: `index(i,j) = offset(i) + (j−i−1)`. -/
def specIndex (k i j : Nat) : Nat :=
  specOffset k i + (j - i - 1)

/-- The widths of the two unsigned types of `crossVariable`, whose
declarations are outside the sources at hand: `IndexType` and `std::size_t`. -/
structure WordSizes where
  indexBits : Nat
  sizeBits : Nat
  deriving DecidableEq, Repr

/-- The usual target: `IndexType` is 32 bits wide and `std::size_t` 64. -/
def lp64 : WordSizes := { indexBits := 32, sizeBits := 64 }

/-- The word sizes carry a net of `k` pins: `IndexType` is no wider than
`std::size_t`, the pin count is a `std::size_t` value, every pin position below
`k` is an `IndexType` value, and so is every slot index below `k(k-1)/2`. -/
def WordSizes.carries (ws : WordSizes) (k : Nat) : Prop :=
  ws.indexBits ≤ ws.sizeBits ∧ k < 2 ^ ws.sizeBits ∧ k ≤ 2 ^ ws.indexBits ∧
    k * (k - 1) / 2 ≤ 2 ^ ws.indexBits

instance (ws : WordSizes) (k : Nat) : Decidable (ws.carries k) := by
  unfold WordSizes.carries
  infer_instance

/-- Unsigned subtraction on `bits`-wide words: the difference modulo `2 ^ bits`. -/
def wrapSub (bits a b : Nat) : Nat :=
  (a % 2 ^ bits + (2 ^ bits - b % 2 ^ bits)) % 2 ^ bits

/-- Unsigned addition on `bits`-wide words. -/
def wrapAdd (bits a b : Nat) : Nat :=
  (a + b) % 2 ^ bits

/-- The accumulation loop of `crossVariable` on machine words: `numPins - i - 1`
is evaluated in `std::size_t`, and `offset +=` stores the sum back into the
`IndexType` variable `offset`. -/
def offsetLoopW (ws : WordSizes) (numPins firstPinIdx : Nat) : Nat :=
  (List.range firstPinIdx).foldl
    (fun offset i =>
      wrapAdd ws.sizeBits offset (wrapSub ws.sizeBits (wrapSub ws.sizeBits numPins i) 1)
        % 2 ^ ws.indexBits)
    0

/-- The index `idx` of `crossVariable` on machine words, for the arguments as
they are after the swap. -/
def crossIndexW (ws : WordSizes) (numPins firstPinIdx secondPinIdx : Nat) : Nat :=
  wrapAdd ws.indexBits (offsetLoopW ws numPins firstPinIdx)
    (wrapSub ws.indexBits (wrapSub ws.indexBits secondPinIdx firstPinIdx) 1)

/-- The first statement of `crossVariable`:
`if (firstPinIdx > secondPinIdx) std::swap(firstPinIdx, secondPinIdx);`. -/
def orderPins (firstPinIdx secondPinIdx : Nat) : Nat × Nat :=
  if firstPinIdx > secondPinIdx then (secondPinIdx, firstPinIdx)
  else (firstPinIdx, secondPinIdx)

/-- The flat index `crossVariable` computes for a net of `numPins` pins from
its two pin arguments as passed. -/
def crossFlatIndex (ws : WordSizes) (numPins firstPinIdx secondPinIdx : Nat) : Nat :=
  crossIndexW ws numPins (orderPins firstPinIdx secondPinIdx).1
    (orderPins firstPinIdx secondPinIdx).2

/-- The class `IlpTopFloorplanProblem`, as far as `crossVariable` reads it;
`Var` is the solver's variable type. -/
structure IlpTopFloorplanProblem (Var : Type) where
  _problem : TopFloorplanProblem
  _crossVars : List (List Var)

/-- The method `IlpTopFloorplanProblem::crossVariable`. -/
def IlpTopFloorplanProblem.crossVariable {Var : Type} (ws : WordSizes)
    (self : IlpTopFloorplanProblem Var) (netIdx firstPinIdx secondPinIdx : Nat) :
    Except Failure Var := do
  let net ← vectorAt self._problem._nets netIdx
  let numPins := net.pins.length
  let idx := crossFlatIndex ws numPins firstPinIdx secondPinIdx
  let row ← vectorAt self._crossVars netIdx
  vectorAt row idx

/-- The pairs of pin positions `i < j < k` of a net with `k` pins, the pairs a
crossing variable exists for. -/
def pinPairs (k : Nat) : Finset (Nat × Nat) :=
  (Finset.range k ×ˢ Finset.range k).filter (fun p => p.1 < p.2)

/-! ## The result -/

/-- The class `TopFloorplanProblemResult`; default construction leaves the
three maps empty. -/
structure TopFloorplanProblemResult where
  _pinAssignMap : StdMap (StdMap Int) := []
  _cellYLenMap : StdMap Int := []
  _netExternalBBoxMap : StdMap Box := []
  deriving DecidableEq, Repr

/-- Modelled from the spec: the macro `Assert`, declared outside the sources at
hand; a check that fails when its condition is false. -/
def Assert (cond : Bool) : Except Failure Unit :=
  if cond then Except.ok () else Except.error Failure.assertFailed

/-- The method `TopFloorplanProblemResult::pinAssignSol`; the result is the
returned value and the object afterwards. The second test evaluates
`_pinAssignMap.at(cellName)` twice, once for `find` and once for `end`. -/
def TopFloorplanProblemResult.pinAssignSol (self : TopFloorplanProblemResult)
    (cellName pinName : String) : Except Failure (Int × TopFloorplanProblemResult) := do
  if self._pinAssignMap.findIsEnd cellName then
    return (-1, self)
  let pinsForFind ← self._pinAssignMap.atKey cellName
  let _pinsForEnd ← self._pinAssignMap.atKey cellName
  if pinsForFind.findIsEnd pinName then
    return (-1, self)
  let pins ← self._pinAssignMap.atKey cellName
  let side ← pins.atKey pinName
  return (side, self)

/-- The method `TopFloorplanProblemResult::targetModuleHeight`. -/
def TopFloorplanProblemResult.targetModuleHeight (self : TopFloorplanProblemResult)
    (cellName : String) : Except Failure (Int × TopFloorplanProblemResult) := do
  if self._cellYLenMap.findIsEnd cellName then
    return (-1, self)
  let yLen ← self._cellYLenMap.atKey cellName
  return (yLen, self)

/-- The method `TopFloorplanProblemResult::externalNetBBox`; the last line
reads the map with the subscript operator, which may write to it. -/
def TopFloorplanProblemResult.externalNetBBox (self : TopFloorplanProblemResult)
    (pinName : String) : Except Failure (Box × TopFloorplanProblemResult) := do
  if self._netExternalBBoxMap.findIsEnd pinName then
    let box : Box := {}
    Assert (!box.valid)
    return (box, self)
  let (box, mapAfter) := StdMap.subscript {} self._netExternalBBoxMap pinName
  return (box, { self with _netExternalBBoxMap := mapAfter })

/-- A result with one cell, one of its pins, one height and one box. -/
def sampleResult : TopFloorplanProblemResult :=
  { _pinAssignMap := [("OTA", [("vin", 1)])]
    _cellYLenMap := [("OTA", 420)]
    _netExternalBBoxMap := [("vin", { xLo := 0, yLo := 0, xHi := 30, yHi := 50 })] }

/-- The lexicographic order on pin pairs: `p` comes before `q`. -/
abbrev pairPrecedes (p q : Nat × Nat) : Prop :=
  p.1 < q.1 ∨ (p.1 = q.1 ∧ p.2 < q.2)


/-- A problem with one net of five pins and the ten crossing variables of that
net, each variable named by its slot. -/
def sampleIlp : IlpTopFloorplanProblem Nat :=
  { _problem := { _nets := [{ pins := [0, 1, 2, 3, 4] }] }
    _crossVars := [[0, 1, 2, 3, 4, 5, 6, 7, 8, 9]] }


/-! ## The accumulation loop -/

theorem offsetLoop_zero (k : Nat) : offsetLoop k 0 = 0 := by
  simp [offsetLoop]

theorem offsetLoop_succ (k i : Nat) :
    offsetLoop k (i + 1) = offsetLoop k i + (k - i - 1) := by
  simp [offsetLoop, List.range_succ, List.foldl_append]

theorem offsetLoop_mono (k : Nat) {i i' : Nat} (h : i ≤ i') :
    offsetLoop k i ≤ offsetLoop k i' := by
  induction h with
  | refl => exact Nat.le_refl _
  | step _ ih => rw [offsetLoop_succ]; omega

/-- Twice the offset, free of division and subtraction. -/
theorem offsetLoop_double (k : Nat) :
    ∀ i, i ≤ k → 2 * offsetLoop k i + i * (i + 1) = 2 * i * k := by
  intro i
  induction i with
  | zero => intro _; simp [offsetLoop_zero]
  | succ n ih =>
    intro h
    have ih' := ih (by omega)
    obtain ⟨d, rfl⟩ : ∃ d, k = n + 1 + d := ⟨k - (n + 1), by omega⟩
    rw [offsetLoop_succ]
    have hd : n + 1 + d - n - 1 = d := by omega
    rw [hd]
    nlinarith [ih']

theorem offsetLoop_closed (k i : Nat) (h : i ≤ k) :
    offsetLoop k i = i * (2 * k - i - 1) / 2 := by
  have h2 := offsetLoop_double k i h
  have h3 : i * (2 * k - i - 1) = 2 * offsetLoop k i := by
    rcases Nat.eq_zero_or_pos i with rfl | hpos
    · simp [offsetLoop_zero]
    · obtain ⟨d, rfl⟩ : ∃ d, k = i + d := ⟨k - i, by omega⟩
      have hd : 2 * (i + d) - i - 1 + (i + 1) = 2 * (i + d) := by omega
      have : i * (2 * (i + d) - i - 1) + i * (i + 1) = 2 * i * (i + d) := by
        rw [← Nat.mul_add, hd]; ring
      omega
  rw [h3]; omega

theorem offsetLoop_total (k : Nat) : offsetLoop k k = k * (k - 1) / 2 := by
  have h2 := offsetLoop_double k k (Nat.le_refl k)
  have h3 : k * (k - 1) = 2 * offsetLoop k k := by
    rcases Nat.eq_zero_or_pos k with rfl | hpos
    · simp [offsetLoop_zero]
    · obtain ⟨d, rfl⟩ : ∃ d, k = d + 1 := ⟨k - 1, by omega⟩
      simp only [Nat.add_sub_cancel]
      nlinarith [h2]
  rw [h3]; omega

theorem offsetLoop_eq_specOffset (k i : Nat) : offsetLoop k i = specOffset k i := by
  induction i with
  | zero => simp [offsetLoop_zero, specOffset]
  | succ n ih =>
    rw [offsetLoop_succ, ih]
    simp [specOffset, Finset.sum_range_succ]

theorem offsetLoop_le_crossIndex (k i j : Nat) : offsetLoop k i ≤ crossIndex k i j := by
  unfold crossIndex; omega

theorem crossIndex_lt_offsetLoop_succ {k i j : Nat} (hij : i < j) (hjk : j < k) :
    crossIndex k i j < offsetLoop k (i + 1) := by
  rw [offsetLoop_succ]; unfold crossIndex; omega

theorem crossIndex_lt_of_fst_lt {k i j i' : Nat} (j' : Nat) (hij : i < j) (hjk : j < k)
    (hlt : i < i') : crossIndex k i j < crossIndex k i' j' := by
  have h1 := crossIndex_lt_offsetLoop_succ hij hjk
  have h2 : offsetLoop k (i + 1) ≤ offsetLoop k i' := offsetLoop_mono k hlt
  have h3 := offsetLoop_le_crossIndex k i' j'
  omega

theorem crossIndex_lt_total {k i j : Nat} (hij : i < j) (hjk : j < k) :
    crossIndex k i j < k * (k - 1) / 2 := by
  have h1 := crossIndex_lt_offsetLoop_succ hij hjk
  have h2 : offsetLoop k (i + 1) ≤ offsetLoop k k := offsetLoop_mono k (by omega)
  rw [offsetLoop_total] at h2
  omega

theorem crossIndex_inj {k i j i' j' : Nat} (hij : i < j) (hjk : j < k)
    (hij' : i' < j') (hjk' : j' < k) (h : crossIndex k i j = crossIndex k i' j') :
    i = i' ∧ j = j' := by
  have hi : i = i' := by
    rcases Nat.lt_trichotomy i i' with hlt | heq | hgt
    · have := crossIndex_lt_of_fst_lt j' hij hjk hlt; omega
    · exact heq
    · have := crossIndex_lt_of_fst_lt j hij' hjk' hgt; omega
  subst hi
  refine ⟨rfl, ?_⟩
  unfold crossIndex at h
  omega

/-- Every slot below the offset of row `m` is the index of a pair. -/
theorem crossIndex_surj_below (k n : Nat) :
    ∀ m, m ≤ k → n < offsetLoop k m →
      ∃ i j, i < j ∧ j < k ∧ crossIndex k i j = n := by
  intro m
  induction m with
  | zero => intro _ h; simp [offsetLoop_zero] at h
  | succ m ih =>
    intro hm hn
    by_cases hlt : n < offsetLoop k m
    · exact ih (by omega) hlt
    · rw [offsetLoop_succ] at hn
      refine ⟨m, m + 1 + (n - offsetLoop k m), by omega, by omega, ?_⟩
      unfold crossIndex
      omega

theorem mem_pinPairs {k : Nat} {p : Nat × Nat} :
    p ∈ pinPairs k ↔ p.1 < p.2 ∧ p.2 < k := by
  simp only [pinPairs, Finset.mem_filter, Finset.mem_product, Finset.mem_range]
  constructor
  · rintro ⟨⟨_, h2⟩, h3⟩; exact ⟨h3, h2⟩
  · rintro ⟨h1, h2⟩; exact ⟨⟨by omega, h2⟩, h1⟩

theorem crossIndex_injOn (k : Nat) :
    Set.InjOn (fun p : Nat × Nat => crossIndex k p.1 p.2) (pinPairs k) := by
  intro p hp q hq h
  have hp' := mem_pinPairs.mp (Finset.mem_coe.mp hp)
  have hq' := mem_pinPairs.mp (Finset.mem_coe.mp hq)
  have := crossIndex_inj hp'.1 hp'.2 hq'.1 hq'.2 h
  exact Prod.ext this.1 this.2

theorem image_crossIndex (k : Nat) :
    (pinPairs k).image (fun p => crossIndex k p.1 p.2) = Finset.range (k * (k - 1) / 2) := by
  ext n
  simp only [Finset.mem_image, Finset.mem_range]
  constructor
  · rintro ⟨p, hp, rfl⟩
    have hp' := mem_pinPairs.mp hp
    exact crossIndex_lt_total hp'.1 hp'.2
  · intro hn
    rw [← offsetLoop_total] at hn
    obtain ⟨i, j, hij, hjk, h⟩ := crossIndex_surj_below k n k (Nat.le_refl k) hn
    exact ⟨(i, j), mem_pinPairs.mpr ⟨hij, hjk⟩, h⟩

/-! ## The loop on machine words -/

theorem orderPins_of_lt {i j : Nat} (h : i < j) : orderPins i j = (i, j) := by
  unfold orderPins
  rw [if_neg (by omega)]


theorem wrapSub_of_le {bits a b : Nat} (hb : b ≤ a) (ha : a < 2 ^ bits) :
    wrapSub bits a b = a - b := by
  unfold wrapSub
  have hb' : b % 2 ^ bits = b := Nat.mod_eq_of_lt (by omega)
  have ha' : a % 2 ^ bits = a := Nat.mod_eq_of_lt ha
  rw [hb', ha']
  have : a + (2 ^ bits - b) = (a - b) + 2 ^ bits := by omega
  rw [this, Nat.add_mod_right]
  exact Nat.mod_eq_of_lt (by omega)

theorem offsetLoopW_zero (ws : WordSizes) (k : Nat) : offsetLoopW ws k 0 = 0 := by
  simp [offsetLoopW]

theorem offsetLoopW_succ (ws : WordSizes) (k i : Nat) :
    offsetLoopW ws k (i + 1) =
      wrapAdd ws.sizeBits (offsetLoopW ws k i)
        (wrapSub ws.sizeBits (wrapSub ws.sizeBits k i) 1) % 2 ^ ws.indexBits := by
  simp [offsetLoopW, List.range_succ, List.foldl_append]

/-- On machine words the loop accumulates the exact offset modulo the range of
`IndexType`, as long as `IndexType` is no wider than `std::size_t`. -/
theorem offsetLoopW_eq_mod (ws : WordSizes) (hw : ws.indexBits ≤ ws.sizeBits) (k : Nat)
    (hk : k < 2 ^ ws.sizeBits) :
    ∀ i, i ≤ k → offsetLoopW ws k i = offsetLoop k i % 2 ^ ws.indexBits := by
  intro i
  induction i with
  | zero => intro _; simp [offsetLoopW_zero, offsetLoop_zero]
  | succ n ih =>
    intro h
    have ih' := ih (by omega)
    have h1 : wrapSub ws.sizeBits k n = k - n := wrapSub_of_le (by omega) hk
    have h2 : wrapSub ws.sizeBits (k - n) 1 = k - n - 1 := wrapSub_of_le (by omega) (by omega)
    have hdvd : 2 ^ ws.indexBits ∣ 2 ^ ws.sizeBits := pow_dvd_pow 2 hw
    rw [offsetLoopW_succ, offsetLoop_succ, h1, h2, wrapAdd, Nat.mod_mod_of_dvd _ hdvd, ih',
      Nat.mod_add_mod]

/-- Within the range of `IndexType` the index computed on machine words is the
exact one. -/
theorem crossIndexW_eq_crossIndex (ws : WordSizes) (hw : ws.indexBits ≤ ws.sizeBits)
    {k i j : Nat} (hk : k < 2 ^ ws.sizeBits) (hij : i < j) (hjk : j < k)
    (hj : j < 2 ^ ws.indexBits) (hfit : k * (k - 1) / 2 ≤ 2 ^ ws.indexBits) :
    crossIndexW ws k i j = crossIndex k i j := by
  have hlt := crossIndex_lt_total hij hjk
  have h1 : wrapSub ws.indexBits j i = j - i := wrapSub_of_le (by omega) hj
  have h2 : wrapSub ws.indexBits (j - i) 1 = j - i - 1 := wrapSub_of_le (by omega) (by omega)
  unfold crossIndexW
  rw [offsetLoopW_eq_mod ws hw k hk i (by omega), h1, h2, wrapAdd, Nat.mod_add_mod]
  exact Nat.mod_eq_of_lt (by unfold crossIndex at hlt; omega)

/-- For a net the word sizes carry, `crossVariable` computes the exact index
of every pair `i < j < k`. -/
theorem crossFlatIndex_eq_crossIndex {ws : WordSizes} {k i j : Nat} (hws : ws.carries k)
    (hij : i < j) (hjk : j < k) : crossFlatIndex ws k i j = crossIndex k i j := by
  obtain ⟨hw, hk, hkw, hfit⟩ := hws
  rw [crossFlatIndex, orderPins_of_lt hij]
  exact crossIndexW_eq_crossIndex ws hw hk hij hjk (by omega) hfit

theorem image_crossFlatIndex {ws : WordSizes} {k : Nat} (hws : ws.carries k) :
    (pinPairs k).image (fun p => crossFlatIndex ws k p.1 p.2)
      = Finset.range (k * (k - 1) / 2) := by
  rw [← image_crossIndex k]
  apply Finset.image_congr
  intro p hp
  have hp' := mem_pinPairs.mp (Finset.mem_coe.mp hp)
  exact crossFlatIndex_eq_crossIndex hws hp'.1 hp'.2

/-! ## Unordered pairs -/

theorem orderPins_comm (i j : Nat) : orderPins i j = orderPins j i := by
  unfold orderPins
  split_ifs with h1 h2 h2
  · omega
  · rfl
  · rfl
  · have : i = j := by omega
    rw [this]

/-- C4: `crossVariable` treats a pin pair as unordered. For every net index and
all pin positions `i`, `j`, the calls with `(i, j)` and with `(j, i)` compute
the same flat index and end the same way: the same variable, or the same
failure. -/
theorem crossVariable_unordered {Var : Type} (ws : WordSizes)
    (self : IlpTopFloorplanProblem Var) (netIdx i j : Nat) :
    (∀ numPins, crossFlatIndex ws numPins i j = crossFlatIndex ws numPins j i) ∧
    self.crossVariable ws netIdx i j = self.crossVariable ws netIdx j i := by
  constructor
  · intro numPins
    unfold crossFlatIndex
    rw [orderPins_comm]
  · unfold IlpTopFloorplanProblem.crossVariable crossFlatIndex
    rw [orderPins_comm]

/-! ## The lookups of the result -/

theorem pinAssignSol_eq (r : TopFloorplanProblemResult) (c p : String) :
    r.pinAssignSol c p =
      Except.ok
        (match r._pinAssignMap.lookup c with
          | none => -1
          | some pins =>
            match pins.lookup p with
            | none => -1
            | some side => side,
          r) := by
  unfold TopFloorplanProblemResult.pinAssignSol
  cases hc : r._pinAssignMap.lookup c with
  | none => simp [StdMap.findIsEnd, hc]; rfl
  | some pins =>
    cases hp : pins.lookup p with
    | none => simp [StdMap.findIsEnd, StdMap.atKey, hc, hp, bind, Except.bind]; rfl
    | some side => simp [StdMap.findIsEnd, StdMap.atKey, hc, hp, bind, Except.bind]; rfl

theorem targetModuleHeight_eq (r : TopFloorplanProblemResult) (c : String) :
    r.targetModuleHeight c =
      Except.ok
        (match r._cellYLenMap.lookup c with
          | none => -1
          | some yLen => yLen,
          r) := by
  unfold TopFloorplanProblemResult.targetModuleHeight
  cases hc : r._cellYLenMap.lookup c with
  | none => simp [StdMap.findIsEnd, hc]; rfl
  | some yLen => simp [StdMap.findIsEnd, StdMap.atKey, hc, bind, Except.bind]; rfl

theorem externalNetBBox_eq (r : TopFloorplanProblemResult) (p : String) :
    r.externalNetBBox p =
      Except.ok
        (match r._netExternalBBoxMap.lookup p with
          | none => {}
          | some box => box,
          r) := by
  unfold TopFloorplanProblemResult.externalNetBBox
  cases hp : r._netExternalBBoxMap.lookup p with
  | none => simp [StdMap.findIsEnd, hp, Assert, Box.valid, bind, Except.bind]; rfl
  | some box => simp [StdMap.findIsEnd, StdMap.subscript, hp, bind, Except.bind]; rfl

theorem atKey_of_not_findIsEnd {V : Type} (m : StdMap V) (key : String)
    (h : m.findIsEnd key = false) : ∃ v, m.lookup key = some v ∧ m.atKey key = Except.ok v := by
  unfold StdMap.findIsEnd at h
  cases hk : m.lookup key with
  | none => simp [hk] at h
  | some v => exact ⟨v, rfl, by simp [StdMap.atKey, hk]⟩

/-- C5: `pinAssignSol(c, p)` returns the value stored at `map[c][p]` when the
cell `c` is recorded and the pin `p` is recorded under it, and `-1` when the
cell is not recorded or the pin is not recorded under that cell. -/
theorem pinAssignSol_lookup (r : TopFloorplanProblemResult) (c p : String) :
    (∀ pins side, r._pinAssignMap.lookup c = some pins → pins.lookup p = some side →
      r.pinAssignSol c p = Except.ok (side, r)) ∧
    (r._pinAssignMap.lookup c = none → r.pinAssignSol c p = Except.ok (-1, r)) ∧
    (∀ pins, r._pinAssignMap.lookup c = some pins → pins.lookup p = none →
      r.pinAssignSol c p = Except.ok (-1, r)) := by
  refine ⟨?_, ?_, ?_⟩
  · intro pins side hc hp
    rw [pinAssignSol_eq, hc]; simp only [hp]
  · intro hc
    rw [pinAssignSol_eq, hc]
  · intro pins hc hp
    rw [pinAssignSol_eq, hc]; simp only [hp]

theorem pinAssignSol_lookup_witness :
    sampleResult.pinAssignSol "OTA" "vin" = Except.ok (1, sampleResult) ∧
    sampleResult.pinAssignSol "BIAS" "vin" = Except.ok (-1, sampleResult) ∧
    sampleResult.pinAssignSol "OTA" "vout" = Except.ok (-1, sampleResult) :=
  ⟨(pinAssignSol_lookup sampleResult "OTA" "vin").1 [("vin", 1)] 1 (by decide) (by decide),
    (pinAssignSol_lookup sampleResult "BIAS" "vin").2.1 (by decide),
    (pinAssignSol_lookup sampleResult "OTA" "vout").2.2 [("vin", 1)] (by decide) (by decide)⟩

/-- C6: `targetModuleHeight(c)` returns the height stored for `c` when `c` is
recorded in the height map, and `-1` when it is not. -/
theorem targetModuleHeight_lookup (r : TopFloorplanProblemResult) (c : String) :
    (∀ yLen, r._cellYLenMap.lookup c = some yLen →
      r.targetModuleHeight c = Except.ok (yLen, r)) ∧
    (r._cellYLenMap.lookup c = none → r.targetModuleHeight c = Except.ok (-1, r)) := by
  refine ⟨?_, ?_⟩
  · intro yLen hc
    rw [targetModuleHeight_eq, hc]
  · intro hc
    rw [targetModuleHeight_eq, hc]

theorem targetModuleHeight_lookup_witness :
    sampleResult.targetModuleHeight "OTA" = Except.ok (420, sampleResult) ∧
    sampleResult.targetModuleHeight "BIAS" = Except.ok (-1, sampleResult) :=
  ⟨(targetModuleHeight_lookup sampleResult "OTA").1 420 (by decide),
    (targetModuleHeight_lookup sampleResult "BIAS").2 (by decide)⟩

/-- C7: `externalNetBBox(p)` returns the box stored for `p` when `p` is
recorded in the external-bounding-box map, and otherwise a default-constructed
box, which is not valid, so the `Assert(not box.valid())` of the miss branch
holds. -/
theorem externalNetBBox_lookup (r : TopFloorplanProblemResult) (p : String) :
    (∀ box, r._netExternalBBoxMap.lookup p = some box →
      r.externalNetBBox p = Except.ok (box, r)) ∧
    (r._netExternalBBoxMap.lookup p = none →
      r.externalNetBBox p = Except.ok (({} : Box), r) ∧
      ({} : Box).valid = false ∧
      Assert (!({} : Box).valid) = Except.ok ()) := by
  refine ⟨?_, ?_⟩
  · intro box hp
    rw [externalNetBBox_eq, hp]
  · intro hp
    refine ⟨?_, by decide, rfl⟩
    rw [externalNetBBox_eq, hp]

theorem externalNetBBox_lookup_witness :
    sampleResult.externalNetBBox "vin"
      = Except.ok ({ xLo := 0, yLo := 0, xHi := 30, yHi := 50 }, sampleResult) ∧
    (sampleResult.externalNetBBox "vout" = Except.ok (({} : Box), sampleResult) ∧
      ({} : Box).valid = false ∧
      Assert (!({} : Box).valid) = Except.ok ()) :=
  ⟨(externalNetBBox_lookup sampleResult "vin").1 _ (by decide),
    (externalNetBBox_lookup sampleResult "vout").2 (by decide)⟩

/-- C8: none of `pinAssignSol`, `targetModuleHeight` and `externalNetBBox`
raises. In every state of the maps and for every name each of them returns, and
each checked lookup `.at` in them is reached only with a key that is present:
behind a `find` that did not hit `end`, the `.at` of the same key succeeds. -/
theorem result_lookups_never_raise (r : TopFloorplanProblemResult) (c p : String) :
    (∃ out, r.pinAssignSol c p = Except.ok out) ∧
    (∃ out, r.targetModuleHeight c = Except.ok out) ∧
    (∃ out, r.externalNetBBox p = Except.ok out) ∧
    (r._pinAssignMap.findIsEnd c = false →
      ∃ pins, r._pinAssignMap.atKey c = Except.ok pins ∧
        (pins.findIsEnd p = false → ∃ side, pins.atKey p = Except.ok side)) ∧
    (r._cellYLenMap.findIsEnd c = false → ∃ yLen, r._cellYLenMap.atKey c = Except.ok yLen) := by
  refine ⟨⟨_, pinAssignSol_eq r c p⟩, ⟨_, targetModuleHeight_eq r c⟩,
    ⟨_, externalNetBBox_eq r p⟩, ?_, ?_⟩
  · intro hc
    obtain ⟨pins, _, hat⟩ := atKey_of_not_findIsEnd _ c hc
    refine ⟨pins, hat, ?_⟩
    intro hp
    obtain ⟨side, _, hat'⟩ := atKey_of_not_findIsEnd pins p hp
    exact ⟨side, hat'⟩
  · intro hc
    obtain ⟨yLen, _, hat⟩ := atKey_of_not_findIsEnd _ c hc
    exact ⟨yLen, hat⟩

theorem result_lookups_never_raise_witness :
    (∃ pins, sampleResult._pinAssignMap.atKey "OTA" = Except.ok pins ∧
      (pins.findIsEnd "vin" = false → ∃ side, pins.atKey "vin" = Except.ok side)) ∧
    (∃ yLen, sampleResult._cellYLenMap.atKey "OTA" = Except.ok yLen) :=
  ⟨(result_lookups_never_raise sampleResult "OTA" "vin").2.2.2.1 (by decide),
    (result_lookups_never_raise sampleResult "OTA" "vin").2.2.2.2 (by decide)⟩

/-- C9: the lookups are read-only. Each of `pinAssignSol`, `targetModuleHeight`
and `externalNetBBox` returns and leaves the object, hence all three maps, as it
was; in particular `externalNetBBox` on a pin that is not recorded leaves the
pin not recorded. -/
theorem result_lookups_read_only (r : TopFloorplanProblemResult) (c p : String) :
    (∃ side, r.pinAssignSol c p = Except.ok (side, r)) ∧
    (∃ yLen, r.targetModuleHeight c = Except.ok (yLen, r)) ∧
    (∃ box, r.externalNetBBox p = Except.ok (box, r)) ∧
    (r._netExternalBBoxMap.lookup p = none →
      ∀ box after, r.externalNetBBox p = Except.ok (box, after) →
        after._netExternalBBoxMap.lookup p = none ∧
        after._pinAssignMap = r._pinAssignMap ∧
        after._cellYLenMap = r._cellYLenMap ∧
        after._netExternalBBoxMap = r._netExternalBBoxMap) := by
  refine ⟨⟨_, pinAssignSol_eq r c p⟩, ⟨_, targetModuleHeight_eq r c⟩,
    ⟨_, externalNetBBox_eq r p⟩, ?_⟩
  intro hp box after h
  rw [externalNetBBox_eq] at h
  injection h with h
  injection h with _ h2
  subst h2
  exact ⟨hp, rfl, rfl, rfl⟩

theorem result_lookups_read_only_witness :
    ∀ box after, sampleResult.externalNetBBox "vout" = Except.ok (box, after) →
      after._netExternalBBoxMap.lookup "vout" = none ∧
      after._pinAssignMap = sampleResult._pinAssignMap ∧
      after._cellYLenMap = sampleResult._cellYLenMap ∧
      after._netExternalBBoxMap = sampleResult._netExternalBBoxMap :=
  (result_lookups_read_only sampleResult "OTA" "vout").2.2.2 (by decide)

/-- C10: on a result that was never populated (default-constructed, all maps
empty) every lookup returns the not-found sentinel: `pinAssignSol` gives `-1`,
`targetModuleHeight` gives `-1`, and `externalNetBBox` gives a box that is not
valid. -/
theorem empty_result_lookups (c p : String) :
    ({} : TopFloorplanProblemResult).pinAssignSol c p = Except.ok (-1, {}) ∧
    ({} : TopFloorplanProblemResult).targetModuleHeight c = Except.ok (-1, {}) ∧
    (∃ box, ({} : TopFloorplanProblemResult).externalNetBBox p = Except.ok (box, {}) ∧
      box.valid = false) := by
  refine ⟨?_, ?_, ⟨{}, ?_, by decide⟩⟩
  · rw [pinAssignSol_eq]; rfl
  · rw [targetModuleHeight_eq]; rfl
  · rw [externalNetBBox_eq]; rfl

/-! ## The problem object -/

/-- C11: a freshly constructed `TopFloorplanProblem` has resource-per-length
factor 10000, a positive integer, and for every value `v`,
`setPinResourceLen(v)` makes the factor exactly `v` and leaves the pins, the
cell boxes, the cell names, the nets and the three pin counters as they were. -/
theorem setPinResourceLen_frame (problem : TopFloorplanProblem) (v : Int) :
    ({} : TopFloorplanProblem)._resourcePerLen = 10000 ∧
    0 < ({} : TopFloorplanProblem)._resourcePerLen ∧
    (problem.setPinResourceLen v)._resourcePerLen = v ∧
    (problem.setPinResourceLen v)._pinIdx = problem._pinIdx ∧
    (problem.setPinResourceLen v)._cellBBox = problem._cellBBox ∧
    (problem.setPinResourceLen v)._cellNames = problem._cellNames ∧
    (problem.setPinResourceLen v)._nets = problem._nets ∧
    (problem.setPinResourceLen v)._numAsymPins = problem._numAsymPins ∧
    (problem.setPinResourceLen v)._numSymPriPins = problem._numSymPriPins ∧
    (problem.setPinResourceLen v)._numSymSecPins = problem._numSymSecPins :=
  ⟨rfl, by decide, rfl, rfl, rfl, rfl, rfl, rfl, rfl, rfl⟩

/-! ## The sentinel of `pinAssignSol` -/

/-- C12: whenever every side stored in the pin-assignment map is 0 or 1,
`pinAssignSol` returns a value in `{-1, 0, 1}` for every cell name and pin
name, and it returns `-1` exactly when that pin is not recorded under that
cell, so the sentinel is never a recorded side. -/
theorem pinAssignSol_sentinel (r : TopFloorplanProblemResult) (c p : String)
    (hsides : ∀ cell pins pin side, r._pinAssignMap.lookup cell = some pins →
      pins.lookup pin = some side → side = 0 ∨ side = 1) :
    ∃ side, r.pinAssignSol c p = Except.ok (side, r) ∧
      (side = -1 ∨ side = 0 ∨ side = 1) ∧
      (side = -1 ↔
        ¬ ∃ pins stored, r._pinAssignMap.lookup c = some pins ∧
          pins.lookup p = some stored) := by
  have heq := pinAssignSol_eq r c p
  cases hc : r._pinAssignMap.lookup c with
  | none =>
    rw [hc] at heq
    exact ⟨-1, heq, Or.inl rfl, by simp⟩
  | some pins =>
    rw [hc] at heq
    cases hp : pins.lookup p with
    | none =>
      simp only [hp] at heq
      refine ⟨-1, heq, Or.inl rfl, ?_⟩
      simp [hp]
    | some stored =>
      simp only [hp] at heq
      have h01 := hsides c pins p stored hc hp
      refine ⟨stored, heq, Or.inr h01, ?_⟩
      have hne : stored ≠ -1 := by omega
      simp [hp, hne]

theorem pinAssignSol_sentinel_witness :
    ∃ side, sampleResult.pinAssignSol "OTA" "vin" = Except.ok (side, sampleResult) ∧
      (side = -1 ∨ side = 0 ∨ side = 1) ∧
      (side = -1 ↔
        ¬ ∃ pins stored, sampleResult._pinAssignMap.lookup "OTA" = some pins ∧
          pins.lookup "vin" = some stored) :=
  pinAssignSol_sentinel sampleResult "OTA" "vin" (by
    intro cell pins pin side hc hp
    have hcell : cell = "OTA" ∧ pins = [("vin", 1)] := by
      by_cases h : cell = "OTA"
      · subst h
        simp [sampleResult, List.lookup] at hc
        exact ⟨rfl, hc.symm⟩
      · have hb : (cell == "OTA") = false := by simpa using h
        simp [sampleResult, List.lookup, hb] at hc
    obtain ⟨_, rfl⟩ := hcell
    by_cases h : pin = "vin"
    · subst h
      simp [List.lookup] at hp
      exact Or.inr hp.symm
    · have hb : (pin == "vin") = false := by simpa using h
      simp [List.lookup, hb] at hp)

/-! ## The order of the slots -/

theorem crossIndex_lt_iff {k i j i' j' : Nat} (hij : i < j) (hjk : j < k)
    (hij' : i' < j') (hjk' : j' < k) :
    crossIndex k i j < crossIndex k i' j' ↔ pairPrecedes (i, j) (i', j') := by
  unfold pairPrecedes
  simp only
  constructor
  · intro h
    rcases Nat.lt_trichotomy i i' with hlt | heq | hgt
    · exact Or.inl hlt
    · subst heq
      refine Or.inr ⟨rfl, ?_⟩
      unfold crossIndex at h
      omega
    · have := crossIndex_lt_of_fst_lt j hij' hjk' hgt
      omega
  · rintro (hlt | ⟨heq, hlt⟩)
    · exact crossIndex_lt_of_fst_lt j' hij hjk hlt
    · subst heq
      unfold crossIndex
      omega

/-- The pairs before `(i, j)` are as many as its index. -/
theorem card_pairs_before {k i j : Nat} (hij : i < j) (hjk : j < k) :
    ((pinPairs k).filter (fun p => pairPrecedes p (i, j))).card = crossIndex k i j := by
  have himg : ((pinPairs k).filter (fun p => pairPrecedes p (i, j))).image
      (fun p => crossIndex k p.1 p.2) = Finset.range (crossIndex k i j) := by
    ext n
    simp only [Finset.mem_image, Finset.mem_filter, Finset.mem_range]
    constructor
    · rintro ⟨p, ⟨hp, hlex⟩, rfl⟩
      have hp' := mem_pinPairs.mp hp
      exact (crossIndex_lt_iff hp'.1 hp'.2 hij hjk).mpr hlex
    · intro hn
      have htot : n < offsetLoop k k := by
        rw [offsetLoop_total]
        exact Nat.lt_trans hn (crossIndex_lt_total hij hjk)
      obtain ⟨a, b, hab, hbk, h⟩ := crossIndex_surj_below k n k (Nat.le_refl k) htot
      refine ⟨(a, b), ⟨mem_pinPairs.mpr ⟨hab, hbk⟩, ?_⟩, h⟩
      exact (crossIndex_lt_iff hab hbk hij hjk).mp (by rw [h]; exact hn)
  have hinj : Set.InjOn (fun p : Nat × Nat => crossIndex k p.1 p.2)
      ((pinPairs k).filter (fun p => pairPrecedes p (i, j))) := by
    intro p hp q hq h
    exact crossIndex_injOn k (Finset.mem_coe.mpr (Finset.mem_of_mem_filter _ (Finset.mem_coe.mp hp)))
      (Finset.mem_coe.mpr (Finset.mem_of_mem_filter _ (Finset.mem_coe.mp hq))) h
  rw [← Finset.card_image_of_injOn hinj, himg, Finset.card_range]

/-! ## Equal pin positions -/

theorem crossVariable_eq_vectorAt {Var : Type} (ws : WordSizes)
    (self : IlpTopFloorplanProblem Var) (netIdx i j : Nat) (net : FpNet) (row : List Var)
    (hnet : self._problem._nets[netIdx]? = some net)
    (hrow : self._crossVars[netIdx]? = some row) :
    self.crossVariable ws netIdx i j
      = vectorAt row (crossFlatIndex ws net.pins.length i j) := by
  unfold IlpTopFloorplanProblem.crossVariable
  simp [vectorAt, hnet, hrow, bind, Except.bind]

theorem vectorAt_of_lt {α : Type} (v : List α) (idx : Nat) (h : idx < v.length) :
    vectorAt v idx = Except.ok (v.get ⟨idx, h⟩) := by
  unfold vectorAt
  rw [List.getElem?_eq_getElem h]
  rfl

theorem vectorAt_of_le {α : Type} (v : List α) (idx : Nat) (h : v.length ≤ idx) :
    vectorAt v idx = Except.error Failure.outOfRange := by
  unfold vectorAt
  rw [List.getElem?_eq_none h]

theorem wrapSub_self (bits i : Nat) : wrapSub bits i i = 0 := by
  unfold wrapSub
  have hpos : 0 < 2 ^ bits := Nat.two_pow_pos _
  have hlt : i % 2 ^ bits < 2 ^ bits := Nat.mod_lt _ hpos
  have : i % 2 ^ bits + (2 ^ bits - i % 2 ^ bits) = 2 ^ bits := by omega
  rw [this, Nat.mod_self]

theorem wrapSub_zero_one (bits : Nat) : wrapSub bits 0 1 = 2 ^ bits - 1 := by
  unfold wrapSub
  have hpos : 0 < 2 ^ bits := Nat.two_pow_pos _
  rcases Nat.eq_or_lt_of_le (Nat.succ_le_of_lt hpos) with h1 | h1
  · rw [← h1]
  · have h1' : 1 % 2 ^ bits = 1 := Nat.mod_eq_of_lt h1
    rw [h1', Nat.zero_mod, Nat.zero_add]
    exact Nat.mod_eq_of_lt (by omega)

theorem orderPins_self (i : Nat) : orderPins i i = (i, i) := by
  unfold orderPins
  rw [if_neg (Nat.lt_irrefl i)]

/-- With both pin arguments equal the index is the offset minus one, modulo the
range of `IndexType`. -/
theorem crossFlatIndex_self (ws : WordSizes) (k i : Nat) :
    crossFlatIndex ws k i i
      = (offsetLoopW ws k i + (2 ^ ws.indexBits - 1)) % 2 ^ ws.indexBits := by
  rw [crossFlatIndex, orderPins_self, crossIndexW, wrapSub_self, wrapSub_zero_one, wrapAdd]

theorem crossFlatIndex_zero_zero (ws : WordSizes) (k : Nat) :
    crossFlatIndex ws k 0 0 = 2 ^ ws.indexBits - 1 := by
  have hpos : 0 < 2 ^ ws.indexBits := Nat.two_pow_pos _
  rw [crossFlatIndex_self, offsetLoopW_zero, Nat.zero_add]
  exact Nat.mod_eq_of_lt (by omega)

theorem offsetLoop_pred {k i : Nat} (h1 : 1 ≤ i) (hik : i < k) :
    offsetLoop k i = crossIndex k (i - 1) (k - 1) + 1 := by
  obtain ⟨n, rfl⟩ : ∃ n, i = n + 1 := ⟨i - 1, by omega⟩
  rw [offsetLoop_succ]
  unfold crossIndex
  simp only [Nat.add_sub_cancel]
  omega

/-- For a net the word sizes carry, equal pin positions `i = j ≥ 1` address the
slot of the pair `(i - 1, k - 1)`. -/
theorem crossFlatIndex_self_eq {ws : WordSizes} {k i : Nat} (hws : ws.carries k)
    (h1 : 1 ≤ i) (hik : i < k) :
    crossFlatIndex ws k i i = crossIndex k (i - 1) (k - 1) := by
  obtain ⟨hw, hk, hkw, hfit⟩ := hws
  have hoff := offsetLoop_pred h1 hik
  have hle : offsetLoop k i ≤ 2 ^ ws.indexBits := by
    have := offsetLoop_mono k (Nat.le_of_lt hik)
    rw [offsetLoop_total] at this
    omega
  rw [crossFlatIndex_self, offsetLoopW_eq_mod ws hw k hk i (Nat.le_of_lt hik), Nat.mod_add_mod]
  have : offsetLoop k i + (2 ^ ws.indexBits - 1)
      = crossIndex k (i - 1) (k - 1) + 2 ^ ws.indexBits := by omega
  rw [this, Nat.add_mod_right]
  exact Nat.mod_eq_of_lt (by omega)

/-- C14, as stated, fails: in a net of five pins the call with both pin
arguments equal to 1 computes the index 3, inside `0 .. 9`, and returns the
variable of the pair `(0, 4)` instead of failing. -/
theorem crossVariable_equal_pins_counterexample :
    crossFlatIndex lp64 5 1 1 = 3 ∧ 3 < 5 * (5 - 1) / 2 ∧
    sampleIlp.crossVariable lp64 0 1 1 = Except.ok 3 ∧
    sampleIlp.crossVariable lp64 0 0 4 = Except.ok 3 ∧
    ¬ (∀ k i, i < k → ¬ crossFlatIndex lp64 k i i < k * (k - 1) / 2) := by
  refine ⟨by decide, by decide, rfl, rfl, ?_⟩
  intro h
  exact h 5 1 (by decide) (by decide)

/-- C14, amended: `crossVariable` does not detect equal pin positions. For a net
of `k` pins that the word sizes carry, with a crossing-variable vector of length
`k(k-1)/2`: the call with both pin arguments 0 computes the index
`2 ^ indexBits - 1`, and fails with out-of-range whenever `k(k-1)/2` is below
`2 ^ indexBits`; the call with both pin arguments `i`, `1 ≤ i < k`, computes the
index of the pair `(i - 1, k - 1)`, inside the range, and returns that pair's
variable. -/
theorem crossVariable_equal_pins {Var : Type} (ws : WordSizes)
    (self : IlpTopFloorplanProblem Var) (netIdx k i : Nat) (net : FpNet) (row : List Var)
    (hws : ws.carries k)
    (hnet : self._problem._nets[netIdx]? = some net) (hpins : net.pins.length = k)
    (hrow : self._crossVars[netIdx]? = some row) (hlen : row.length = k * (k - 1) / 2)
    (hik : i < k) :
    (i = 0 → k * (k - 1) / 2 < 2 ^ ws.indexBits →
      crossFlatIndex ws k i i = 2 ^ ws.indexBits - 1 ∧
      self.crossVariable ws netIdx i i = Except.error Failure.outOfRange) ∧
    (1 ≤ i →
      crossFlatIndex ws k i i = crossFlatIndex ws k (i - 1) (k - 1) ∧
      crossFlatIndex ws k i i < k * (k - 1) / 2 ∧
      ∃ v, self.crossVariable ws netIdx i i = Except.ok v ∧
        self.crossVariable ws netIdx (i - 1) (k - 1) = Except.ok v) := by
  constructor
  · intro hi hlt
    subst hi
    refine ⟨crossFlatIndex_zero_zero ws k, ?_⟩
    rw [crossVariable_eq_vectorAt ws self netIdx 0 0 net row hnet hrow, hpins,
      crossFlatIndex_zero_zero]
    exact vectorAt_of_le row _ (by omega)
  · intro h1
    have hpair1 : i - 1 < k - 1 := by omega
    have hpair2 : k - 1 < k := by omega
    have hself := crossFlatIndex_self_eq hws h1 hik
    have hpair := crossFlatIndex_eq_crossIndex hws hpair1 hpair2
    have hlt := crossIndex_lt_total hpair1 hpair2
    have hin : crossFlatIndex ws k i i < row.length := by rw [hself, hlen]; exact hlt
    refine ⟨by rw [hself, hpair], by rw [hself]; exact hlt, row.get ⟨_, hin⟩, ?_, ?_⟩
    · rw [crossVariable_eq_vectorAt ws self netIdx i i net row hnet hrow, hpins]
      exact vectorAt_of_lt row _ hin
    · rw [crossVariable_eq_vectorAt ws self netIdx (i - 1) (k - 1) net row hnet hrow, hpins]
      have hidx : crossFlatIndex ws k (i - 1) (k - 1) = crossFlatIndex ws k i i := by
        rw [hself, hpair]
      rw [hidx]
      exact vectorAt_of_lt row _ hin

theorem crossVariable_equal_pins_witness :
    (crossFlatIndex lp64 5 0 0 = 2 ^ lp64.indexBits - 1 ∧
      sampleIlp.crossVariable lp64 0 0 0 = Except.error Failure.outOfRange) ∧
    (crossFlatIndex lp64 5 2 2 = crossFlatIndex lp64 5 (2 - 1) (5 - 1) ∧
      crossFlatIndex lp64 5 2 2 < 5 * (5 - 1) / 2 ∧
      ∃ v, sampleIlp.crossVariable lp64 0 2 2 = Except.ok v ∧
        sampleIlp.crossVariable lp64 0 (2 - 1) (5 - 1) = Except.ok v) :=
  ⟨(crossVariable_equal_pins lp64 sampleIlp 0 5 0 { pins := [0, 1, 2, 3, 4] }
      [0, 1, 2, 3, 4, 5, 6, 7, 8, 9] (by decide) rfl rfl rfl rfl (by decide)).1 rfl
      (by decide),
    (crossVariable_equal_pins lp64 sampleIlp 0 5 2 { pins := [0, 1, 2, 3, 4] }
      [0, 1, 2, 3, 4, 5, 6, 7, 8, 9] (by decide) rfl rfl rfl rfl (by decide)).2
      (by decide)⟩

/-! ## Distinct pin positions -/

theorem crossFlatIndex_lt_pow (ws : WordSizes) (k i j : Nat) :
    crossFlatIndex ws k i j < 2 ^ ws.indexBits := by
  unfold crossFlatIndex crossIndexW wrapAdd
  exact Nat.mod_lt _ (Nat.two_pow_pos _)

theorem le_total_of_three_le {k : Nat} (h : 3 ≤ k) : k ≤ k * (k - 1) / 2 := by
  rw [Nat.le_div_iff_mul_le (by decide)]
  exact Nat.mul_le_mul_left k (by omega)

/-- The index of a pair `i < j < k` is below `k(k-1)/2` on machine words too,
whether or not `IndexType` can hold `k(k-1)/2`. -/
theorem crossFlatIndex_lt_total_of_lt (ws : WordSizes) {k i j : Nat}
    (hw2 : 2 ≤ ws.indexBits) (hw : ws.indexBits ≤ ws.sizeBits) (hk : k < 2 ^ ws.sizeBits)
    (hij : i < j) (hjk : j < k) : crossFlatIndex ws k i j < k * (k - 1) / 2 := by
  by_cases hfit : k * (k - 1) / 2 ≤ 2 ^ ws.indexBits
  · have h4 : 2 ^ 2 ≤ 2 ^ ws.indexBits := Nat.pow_le_pow_right (by decide) hw2
    have hkw : k ≤ 2 ^ ws.indexBits := by
      by_cases h3 : 3 ≤ k
      · exact Nat.le_trans (le_total_of_three_le h3) hfit
      · have : (2 : Nat) ^ 2 = 4 := by decide
        omega
    rw [crossFlatIndex_eq_crossIndex ⟨hw, hk, hkw, hfit⟩ hij hjk]
    exact crossIndex_lt_total hij hjk
  · have := crossFlatIndex_lt_pow ws k i j
    omega

theorem crossFlatIndex_comm (ws : WordSizes) (k i j : Nat) :
    crossFlatIndex ws k i j = crossFlatIndex ws k j i := by
  unfold crossFlatIndex
  rw [orderPins_comm]

theorem crossFlatIndex_lt_total_of_ne (ws : WordSizes) {k i j : Nat}
    (hw2 : 2 ≤ ws.indexBits) (hw : ws.indexBits ≤ ws.sizeBits) (hk : k < 2 ^ ws.sizeBits)
    (hi : i < k) (hj : j < k) (hne : i ≠ j) : crossFlatIndex ws k i j < k * (k - 1) / 2 := by
  rcases Nat.lt_or_gt_of_ne hne with hlt | hgt
  · exact crossFlatIndex_lt_total_of_lt ws hw2 hw hk hlt hj
  · rw [crossFlatIndex_comm]
    exact crossFlatIndex_lt_total_of_lt ws hw2 hw hk hgt hi

/-- C15: when `netIdx` is a valid net index, the net has `k` pins and its
crossing-variable vector has length `k(k-1)/2`, `crossVariable(netIdx, i, j)`
succeeds for all distinct `i, j < k` in either argument order: both checked
lookups are in range, and both orders return the variable in the slot of the
pair. The word sizes are any with `IndexType` at least two bits wide and no
wider than `std::size_t`, and `k` a `std::size_t` value. -/
theorem crossVariable_succeeds {Var : Type} (ws : WordSizes)
    (self : IlpTopFloorplanProblem Var) (netIdx k i j : Nat) (net : FpNet) (row : List Var)
    (hw2 : 2 ≤ ws.indexBits) (hw : ws.indexBits ≤ ws.sizeBits) (hk : k < 2 ^ ws.sizeBits)
    (hnet : self._problem._nets[netIdx]? = some net) (hpins : net.pins.length = k)
    (hrow : self._crossVars[netIdx]? = some row) (hlen : row.length = k * (k - 1) / 2)
    (hi : i < k) (hj : j < k) (hne : i ≠ j) :
    vectorAt self._problem._nets netIdx = Except.ok net ∧
    vectorAt self._crossVars netIdx = Except.ok row ∧
    crossFlatIndex ws k i j < row.length ∧
    ∃ v, row[crossFlatIndex ws k i j]? = some v ∧
      self.crossVariable ws netIdx i j = Except.ok v ∧
      self.crossVariable ws netIdx j i = Except.ok v := by
  have hin : crossFlatIndex ws k i j < row.length := by
    rw [hlen]
    exact crossFlatIndex_lt_total_of_ne ws hw2 hw hk hi hj hne
  refine ⟨by simp [vectorAt, hnet], by simp [vectorAt, hrow], hin,
    row.get ⟨_, hin⟩, ?_, ?_, ?_⟩
  · rw [List.getElem?_eq_getElem hin]
    rfl
  · rw [crossVariable_eq_vectorAt ws self netIdx i j net row hnet hrow, hpins]
    exact vectorAt_of_lt row _ hin
  · rw [crossVariable_eq_vectorAt ws self netIdx j i net row hnet hrow, hpins]
    have hidx : crossFlatIndex ws k j i = crossFlatIndex ws k i j :=
      crossFlatIndex_comm ws k j i
    rw [hidx]
    exact vectorAt_of_lt row _ hin

theorem crossVariable_succeeds_witness :
    vectorAt sampleIlp._problem._nets 0 = Except.ok { pins := [0, 1, 2, 3, 4] } ∧
    vectorAt sampleIlp._crossVars 0 = Except.ok [0, 1, 2, 3, 4, 5, 6, 7, 8, 9] ∧
    crossFlatIndex lp64 5 3 1 < [0, 1, 2, 3, 4, 5, 6, 7, 8, 9].length ∧
    ∃ v, [0, 1, 2, 3, 4, 5, 6, 7, 8, 9][crossFlatIndex lp64 5 3 1]? = some v ∧
      sampleIlp.crossVariable lp64 0 3 1 = Except.ok v ∧
      sampleIlp.crossVariable lp64 0 1 3 = Except.ok v :=
  crossVariable_succeeds lp64 sampleIlp 0 5 3 1 { pins := [0, 1, 2, 3, 4] }
    [0, 1, 2, 3, 4, 5, 6, 7, 8, 9] (by decide) (by decide) (by decide) rfl rfl rfl rfl
    (by decide) (by decide) (by decide)

/-! ## No wrap-around for nets that fit -/

theorem carries_of_total_lt {ws : WordSizes} {k : Nat} (hw2 : 2 ≤ ws.indexBits)
    (hw : ws.indexBits ≤ ws.sizeBits) (htot : k * (k - 1) / 2 < 2 ^ ws.indexBits) :
    ws.carries k ∧ k < 2 ^ ws.indexBits := by
  have h4 : 2 ^ 2 ≤ 2 ^ ws.indexBits := Nat.pow_le_pow_right (by decide) hw2
  have hle : 2 ^ ws.indexBits ≤ 2 ^ ws.sizeBits := Nat.pow_le_pow_right (by decide) hw
  have hkw : k < 2 ^ ws.indexBits := by
    by_cases h3 : 3 ≤ k
    · exact Nat.lt_of_le_of_lt (le_total_of_three_le h3) htot
    · have : (2 : Nat) ^ 2 = 4 := by decide
      omega
  exact ⟨⟨hw, by omega, by omega, by omega⟩, hkw⟩

/-- C16: the index arithmetic of `crossVariable` does not wrap for nets that
fit. With `IndexType` 32 bits wide (and `std::size_t` at least as wide), for
every `k` with `k(k-1)/2 < 2^32` and every `i < j < k`, each intermediate value
on machine words is the exact number: every term `k - t - 1`, the sum before it
is stored, the running offset after each iteration, the difference `j - i - 1`,
and the final index, which is below `2^32`. -/
theorem crossVariable_no_wrap (ws : WordSizes) (k i j : Nat)
    (h32 : ws.indexBits = 32) (hs : 32 ≤ ws.sizeBits)
    (htot : k * (k - 1) / 2 < 2 ^ 32) (hij : i < j) (hjk : j < k) :
    (∀ t, t < i →
      wrapSub ws.sizeBits (wrapSub ws.sizeBits k t) 1 = k - t - 1 ∧
      (k - t - 1) % 2 ^ 32 = k - t - 1 ∧
      wrapAdd ws.sizeBits (offsetLoopW ws k t)
          (wrapSub ws.sizeBits (wrapSub ws.sizeBits k t) 1)
        = offsetLoop k t + (k - t - 1)) ∧
    (∀ t, t ≤ i → offsetLoopW ws k t = offsetLoop k t ∧ offsetLoop k t < 2 ^ 32) ∧
    wrapSub ws.indexBits (wrapSub ws.indexBits j i) 1 = j - i - 1 ∧
    crossIndexW ws k i j = offsetLoop k i + (j - i - 1) ∧
    crossFlatIndex ws k i j = crossIndex k i j ∧
    crossIndex k i j < 2 ^ 32 := by
  have hw : ws.indexBits ≤ ws.sizeBits := by omega
  have htot' : k * (k - 1) / 2 < 2 ^ ws.indexBits := by rw [h32]; exact htot
  obtain ⟨hws, hkw⟩ := carries_of_total_lt (by omega) hw htot'
  rw [h32] at hkw
  have hk : k < 2 ^ ws.sizeBits := hws.2.1
  have hle : (2 : Nat) ^ 32 ≤ 2 ^ ws.sizeBits := Nat.pow_le_pow_right (by decide) hs
  have hidx : crossIndex k i j < 2 ^ 32 := Nat.lt_trans (crossIndex_lt_total hij hjk) htot
  have hoff : ∀ t, t ≤ i → offsetLoop k t < 2 ^ 32 := by
    intro t ht
    have h1 := offsetLoop_mono k ht
    have h2 := offsetLoop_le_crossIndex k i j
    omega
  have hrun : ∀ t, t ≤ i → offsetLoopW ws k t = offsetLoop k t := by
    intro t ht
    rw [offsetLoopW_eq_mod ws hw k hk t (by omega), h32]
    exact Nat.mod_eq_of_lt (hoff t ht)
  have hflat := crossFlatIndex_eq_crossIndex hws hij hjk
  refine ⟨?_, fun t ht => ⟨hrun t ht, hoff t ht⟩, ?_, ?_, hflat, hidx⟩
  · intro t ht
    have h1 : wrapSub ws.sizeBits k t = k - t := wrapSub_of_le (by omega) hk
    have h2 : wrapSub ws.sizeBits (k - t) 1 = k - t - 1 :=
      wrapSub_of_le (by omega) (by omega)
    have hnext := hoff (t + 1) (by omega)
    rw [offsetLoop_succ] at hnext
    refine ⟨by rw [h1, h2], Nat.mod_eq_of_lt (by omega), ?_⟩
    rw [h1, h2, hrun t (by omega), wrapAdd]
    exact Nat.mod_eq_of_lt (by omega)
  · have h1 : wrapSub ws.indexBits j i = j - i :=
      wrapSub_of_le (by omega) (by rw [h32]; omega)
    have h2 : wrapSub ws.indexBits (j - i) 1 = j - i - 1 :=
      wrapSub_of_le (by omega) (by rw [h32]; omega)
    rw [h1, h2]
  · have := hflat
    rw [crossFlatIndex, orderPins_of_lt hij] at this
    rw [this, crossIndex]

theorem crossVariable_no_wrap_witness :
    (∀ t, t < 2 →
      wrapSub lp64.sizeBits (wrapSub lp64.sizeBits 5 t) 1 = 5 - t - 1 ∧
      (5 - t - 1) % 2 ^ 32 = 5 - t - 1 ∧
      wrapAdd lp64.sizeBits (offsetLoopW lp64 5 t)
          (wrapSub lp64.sizeBits (wrapSub lp64.sizeBits 5 t) 1)
        = offsetLoop 5 t + (5 - t - 1)) ∧
    (∀ t, t ≤ 2 → offsetLoopW lp64 5 t = offsetLoop 5 t ∧ offsetLoop 5 t < 2 ^ 32) ∧
    wrapSub lp64.indexBits (wrapSub lp64.indexBits 4 2) 1 = 4 - 2 - 1 ∧
    crossIndexW lp64 5 2 4 = offsetLoop 5 2 + (4 - 2 - 1) ∧
    crossFlatIndex lp64 5 2 4 = crossIndex 5 2 4 ∧
    crossIndex 5 2 4 < 2 ^ 32 :=
  crossVariable_no_wrap lp64 5 2 4 rfl (by decide) (by decide) (by decide) (by decide)

/-! ## The index on machine words, in closed form -/

/-- On machine words the index of a pair `i < j < k` is the exact index modulo
the range of `IndexType`. -/
theorem crossFlatIndex_eq_mod (ws : WordSizes) (k i j : Nat)
    (hw : ws.indexBits ≤ ws.sizeBits) (hk : k < 2 ^ ws.sizeBits)
    (hij : i < j) (hjk : j < k) (hj : j < 2 ^ ws.indexBits) :
    crossFlatIndex ws k i j
      = (i * (2 * k - i - 1) / 2 + (j - i - 1)) % 2 ^ ws.indexBits := by
  have h1 : wrapSub ws.indexBits j i = j - i := wrapSub_of_le (by omega) hj
  have h2 : wrapSub ws.indexBits (j - i) 1 = j - i - 1 := wrapSub_of_le (by omega) (by omega)
  rw [crossFlatIndex, orderPins_of_lt hij]
  unfold crossIndexW
  rw [offsetLoopW_eq_mod ws hw k hk i (by omega), h1, h2, wrapAdd, Nat.mod_add_mod,
    offsetLoop_closed k i (by omega)]

theorem crossIndex_closed {k i j : Nat} (hik : i ≤ k) :
    crossIndex k i j = i * (2 * k - i - 1) / 2 + (j - i - 1) := by
  rw [crossIndex, offsetLoop_closed k i hik]

/-- With `IndexType` 32 bits wide and `std::size_t` 64, a net is carried exactly
when its slot count `k(k-1)/2` is at most `2^32`. -/
theorem lp64_carries_iff (k : Nat) : lp64.carries k ↔ k * (k - 1) / 2 ≤ 2 ^ 32 := by
  constructor
  · intro h
    exact h.2.2.2
  · intro h
    have hkw : k ≤ 2 ^ 32 := by
      by_cases h3 : 3 ≤ k
      · exact Nat.le_trans (le_total_of_three_le h3) h
      · have : (2 : Nat) ^ 32 = 4294967296 := by decide
        omega
    have h64 : (2 : Nat) ^ 32 < 2 ^ 64 := by decide
    exact ⟨by decide, Nat.lt_of_le_of_lt hkw h64, hkw, h⟩

/-- Two pairs of a net of 100000 pins that share slot 0 when `IndexType` is 32
bits wide, and the last pair of that net, whose slot is not its exact index. -/
theorem crossFlatIndex_wrapped :
    crossFlatIndex lp64 100000 0 1 = 0 ∧
    crossFlatIndex lp64 100000 62449 99771 = 0 ∧
    crossFlatIndex lp64 100000 99998 99999 = 704982703 := by
  refine ⟨?_, ?_, ?_⟩
  · rw [crossFlatIndex_eq_mod lp64 100000 0 1 (by decide) (by decide) (by decide) (by decide)
      (by decide)]
    decide
  · rw [crossFlatIndex_eq_mod lp64 100000 62449 99771 (by decide) (by decide) (by decide)
      (by decide) (by decide)]
    decide
  · rw [crossFlatIndex_eq_mod lp64 100000 99998 99999 (by decide) (by decide) (by decide)
      (by decide) (by decide)]
    decide

theorem crossIndex_eq_specIndex (k i j : Nat) : crossIndex k i j = specIndex k i j := by
  simp [crossIndex, specIndex, offsetLoop_eq_specOffset]

/-- On machine words the indices stay below the range of `IndexType`, so they
cannot fill a longer range of slots. -/
theorem image_crossFlatIndex_ne_range (ws : WordSizes) (k total : Nat)
    (h : 2 ^ ws.indexBits < total) :
    ¬ ((pinPairs k).image (fun p => crossFlatIndex ws k p.1 p.2) = Finset.range total) := by
  intro heq
  have hmem : 2 ^ ws.indexBits ∈ Finset.range total := Finset.mem_range.mpr h
  rw [← heq] at hmem
  obtain ⟨p, _, hp⟩ := Finset.mem_image.mp hmem
  have hlt := crossFlatIndex_lt_pow ws k p.1 p.2
  omega

/-! ## The crossing-variable index: injectivity -/

/-- C1, as stated, fails: with `IndexType` 32 bits wide, in a net of 100000
pins the distinct pairs `(0, 1)` and `(62449, 99771)` get the same index 0, the
exact index `2^32` of the second having wrapped. -/
theorem crossVariable_index_injective_counterexample :
    ((0 : Nat) < 1 ∧ 1 < 100000 ∧ 62449 < 99771 ∧ 99771 < 100000) ∧
    crossIndex 100000 62449 99771 = 2 ^ 32 ∧
    crossFlatIndex lp64 100000 0 1 = crossFlatIndex lp64 100000 62449 99771 ∧
    ¬ ((0 : Nat) = 62449 ∧ (1 : Nat) = 99771) ∧
    ¬ (∀ k i j i' j', i < j → j < k → i' < j' → j' < k →
        crossFlatIndex lp64 k i j = crossFlatIndex lp64 k i' j' → i = i' ∧ j = j') := by
  have heq : crossFlatIndex lp64 100000 0 1 = crossFlatIndex lp64 100000 62449 99771 := by
    rw [crossFlatIndex_wrapped.1, crossFlatIndex_wrapped.2.1]
  refine ⟨by decide, ?_, heq, by decide, ?_⟩
  · rw [crossIndex_closed (by decide)]
    decide
  · intro h
    have := h 100000 0 1 62449 99771 (by decide) (by decide) (by decide) (by decide) heq
    exact absurd this.1 (by decide)

/-- C1, amended: the triangular index computed by `crossVariable` is injective
on ordered pairs for every pin count `k` that the word sizes carry (with
`IndexType` 32 bits wide: `k(k-1)/2 ≤ 2^32`). For pairs `i < j < k` and
`i' < j' < k` the computed index is `offset(i) + (j - i - 1)`, with `offset` the
sum the loop accumulates, and equal indices force `i = i'` and `j = j'`. -/
theorem crossVariable_index_injective (ws : WordSizes) (k i j i' j' : Nat)
    (hws : ws.carries k)
    (hij : i < j) (hjk : j < k) (hij' : i' < j') (hjk' : j' < k) :
    crossFlatIndex ws k i j = offsetLoop k i + (j - i - 1) ∧
    crossFlatIndex ws k i' j' = offsetLoop k i' + (j' - i' - 1) ∧
    (crossFlatIndex ws k i j = crossFlatIndex ws k i' j' → i = i' ∧ j = j') := by
  have h1 := crossFlatIndex_eq_crossIndex hws hij hjk
  have h2 := crossFlatIndex_eq_crossIndex hws hij' hjk'
  refine ⟨h1, h2, ?_⟩
  intro h
  rw [h1, h2] at h
  exact crossIndex_inj hij hjk hij' hjk' h

theorem crossVariable_index_injective_witness :
    (lp64.carries 5 ∧ 2 < 4 ∧ 4 < 5) ∧
    crossFlatIndex lp64 5 2 4 = offsetLoop 5 2 + (4 - 2 - 1) ∧
    crossFlatIndex lp64 5 2 4 = offsetLoop 5 2 + (4 - 2 - 1) ∧
    (crossFlatIndex lp64 5 2 4 = crossFlatIndex lp64 5 2 4 → (2 : Nat) = 2 ∧ (4 : Nat) = 4) :=
  ⟨by decide,
    crossVariable_index_injective lp64 5 2 4 2 4 (by decide) (by decide) (by decide)
      (by decide) (by decide)⟩

/-! ## The crossing-variable index: the slots in use -/

/-- C2, as stated, fails: with `IndexType` 32 bits wide, in a net of 100000
pins every computed index is below `2^32` while `k(k-1)/2` is 4999950000, so
the indices are not the whole range, and slot 0 belongs to two pairs. -/
theorem crossVariable_index_exact_range_counterexample :
    100000 * (100000 - 1) / 2 = 4999950000 ∧
    ¬ ((pinPairs 100000).image (fun p => crossFlatIndex lp64 100000 p.1 p.2)
        = Finset.range (100000 * (100000 - 1) / 2)) ∧
    ¬ (∃! p : Nat × Nat,
        (p.1 < p.2 ∧ p.2 < 100000) ∧ crossFlatIndex lp64 100000 p.1 p.2 = 0) := by
  refine ⟨by decide, ?_, ?_⟩
  · exact image_crossFlatIndex_ne_range lp64 100000 _ (by decide)
  · rintro ⟨p, _, huniq⟩
    have h1 := huniq (0, 1) ⟨by decide, crossFlatIndex_wrapped.1⟩
    have h2 := huniq (62449, 99771) ⟨by decide, crossFlatIndex_wrapped.2.1⟩
    have h3 : ((0 : Nat), (1 : Nat)) = (62449, 99771) := h1.trans h2.symm
    exact absurd h3 (by decide)

/-- C2, amended: for every pin count `k` that the word sizes carry (with
`IndexType` 32 bits wide: `k(k-1)/2 ≤ 2^32`) the flat indices `crossVariable`
computes over all pairs `i < j < k` are exactly `0, ..., k(k-1)/2 - 1`, every
value in that range comes from exactly one pair, so `k(k-1)/2` slots are used,
and for `k < 2` there is no pair and the set is empty. -/
theorem crossVariable_index_exact_range (ws : WordSizes) (k : Nat) (hws : ws.carries k) :
    (pinPairs k).image (fun p => crossFlatIndex ws k p.1 p.2)
      = Finset.range (k * (k - 1) / 2) ∧
    (∀ n, n < k * (k - 1) / 2 →
      ∃! p : Nat × Nat, (p.1 < p.2 ∧ p.2 < k) ∧ crossFlatIndex ws k p.1 p.2 = n) ∧
    (pinPairs k).card = k * (k - 1) / 2 ∧
    (k < 2 → pinPairs k = ∅ ∧ k * (k - 1) / 2 = 0 ∧
      (pinPairs k).image (fun p => crossFlatIndex ws k p.1 p.2) = ∅) := by
  have himg := image_crossFlatIndex hws
  refine ⟨himg, ?_, ?_, ?_⟩
  · intro n hn
    rw [← offsetLoop_total] at hn
    obtain ⟨i, j, hij, hjk, h⟩ := crossIndex_surj_below k n k (Nat.le_refl k) hn
    refine ⟨(i, j), ⟨⟨hij, hjk⟩, ?_⟩, ?_⟩
    · rw [crossFlatIndex_eq_crossIndex hws hij hjk]; exact h
    · rintro ⟨i', j'⟩ ⟨⟨hij', hjk'⟩, h'⟩
      rw [crossFlatIndex_eq_crossIndex hws hij' hjk'] at h'
      have := crossIndex_inj hij' hjk' hij hjk (h'.trans h.symm)
      exact Prod.ext this.1 this.2
  · rw [← Finset.card_image_of_injOn (crossIndex_injOn k), image_crossIndex, Finset.card_range]
  · intro hk
    have hempty : pinPairs k = ∅ := by
      ext p
      simp only [mem_pinPairs, Finset.not_mem_empty, iff_false]
      omega
    refine ⟨hempty, ?_, ?_⟩
    · have : k = 0 ∨ k = 1 := by omega
      rcases this with rfl | rfl <;> rfl
    · rw [hempty, Finset.image_empty]

theorem crossVariable_index_exact_range_witness :
    (lp64.carries 4 ∧ lp64.carries 1) ∧
    (∃! p : Nat × Nat, (p.1 < p.2 ∧ p.2 < 4) ∧ crossFlatIndex lp64 4 p.1 p.2 = 5) ∧
    (pinPairs 4).card = 4 * (4 - 1) / 2 ∧
    (pinPairs 1 = ∅ ∧ 1 * (1 - 1) / 2 = 0 ∧
      (pinPairs 1).image (fun p => crossFlatIndex lp64 1 p.1 p.2) = ∅) :=
  ⟨by decide,
    (crossVariable_index_exact_range lp64 4 (by decide)).2.1 5 (by decide),
    (crossVariable_index_exact_range lp64 4 (by decide)).2.2.1,
    (crossVariable_index_exact_range lp64 1 (by decide)).2.2.2 (by decide)⟩

/-! ## The crossing-variable index: the loop and the formula -/

/-- C3, as stated, fails: with `IndexType` 32 bits wide, in a net of 100000
pins the pair `(99998, 99999)` gets the index 704982703, while the specified
formula gives 4999949999. -/
theorem crossVariable_index_eq_spec_counterexample :
    (99998 < 99999 ∧ 99999 < 100000) ∧
    crossFlatIndex lp64 100000 99998 99999 = 704982703 ∧
    specIndex 100000 99998 99999 = 4999949999 ∧
    crossFlatIndex lp64 100000 99998 99999 ≠ specIndex 100000 99998 99999 ∧
    ¬ (∀ k i j, i < j → j < k → crossFlatIndex lp64 k i j = specIndex k i j) := by
  have hspec : specIndex 100000 99998 99999 = 4999949999 := by
    rw [← crossIndex_eq_specIndex, crossIndex_closed (by decide)]
  have hne : crossFlatIndex lp64 100000 99998 99999 ≠ specIndex 100000 99998 99999 := by
    rw [crossFlatIndex_wrapped.2.2, hspec]
    decide
  refine ⟨by decide, crossFlatIndex_wrapped.2.2, hspec, hne, ?_⟩
  intro h
  exact hne (h 100000 99998 99999 (by decide) (by decide))

/-- C3, amended: for every `k` that the word sizes carry (with `IndexType` 32
bits wide: `k(k-1)/2 ≤ 2^32`) and every `i < j < k`, the accumulation loop of
`crossVariable` produces `offset(i) = Σ_{t<i} (k - t - 1)` and the index it
computes is the specified `index(i,j) = offset(i) + (j - i - 1)`, which in
closed form is `i*(2k - i - 1)/2 + (j - i - 1)`. -/
theorem crossVariable_index_eq_spec (ws : WordSizes) (k i j : Nat) (hws : ws.carries k)
    (hij : i < j) (hjk : j < k) :
    offsetLoopW ws k i = specOffset k i ∧
    crossFlatIndex ws k i j = specIndex k i j ∧
    specIndex k i j = i * (2 * k - i - 1) / 2 + (j - i - 1) := by
  have hflat := crossFlatIndex_eq_crossIndex hws hij hjk
  have hlt := crossIndex_lt_total hij hjk
  have hoff := offsetLoop_le_crossIndex k i j
  obtain ⟨hw, hk, _, hfit⟩ := hws
  refine ⟨?_, ?_, ?_⟩
  · rw [offsetLoopW_eq_mod ws hw k hk i (by omega), ← offsetLoop_eq_specOffset]
    exact Nat.mod_eq_of_lt (by omega)
  · rw [hflat, crossIndex_eq_specIndex]
  · rw [← crossIndex_eq_specIndex, crossIndex_closed (by omega)]

theorem crossVariable_index_eq_spec_witness :
    (lp64.carries 6 ∧ 2 < 4 ∧ 4 < 6) ∧
    offsetLoopW lp64 6 2 = specOffset 6 2 ∧
    crossFlatIndex lp64 6 2 4 = specIndex 6 2 4 ∧
    specIndex 6 2 4 = 2 * (2 * 6 - 2 - 1) / 2 + (4 - 2 - 1) :=
  ⟨by decide, crossVariable_index_eq_spec lp64 6 2 4 (by decide) (by decide) (by decide)⟩

/-! ## The crossing-variable index: the order of the slots -/

/-- C13, as stated, fails: with `IndexType` 32 bits wide, in a net of 100000
pins the pair `(0, 1)` precedes `(62449, 99771)` but its index is not smaller,
both being 0, and `(62449, 99771)` has `2^32` pairs before it, not 0. -/
theorem crossVariable_index_lex_order_counterexample :
    ((0 : Nat) < 1 ∧ 1 < 100000 ∧ 62449 < 99771 ∧ 99771 < 100000) ∧
    pairPrecedes (0, 1) (62449, 99771) ∧
    ¬ (crossFlatIndex lp64 100000 0 1 < crossFlatIndex lp64 100000 62449 99771) ∧
    ((pinPairs 100000).filter (fun p => pairPrecedes p (62449, 99771))).card = 2 ^ 32 ∧
    crossFlatIndex lp64 100000 62449 99771 = 0 ∧
    ¬ (∀ k i j i' j', i < j → j < k → i' < j' → j' < k →
        (crossFlatIndex lp64 k i j < crossFlatIndex lp64 k i' j'
          ↔ pairPrecedes (i, j) (i', j'))) := by
  have hnot : ¬ (crossFlatIndex lp64 100000 0 1 < crossFlatIndex lp64 100000 62449 99771) := by
    rw [crossFlatIndex_wrapped.1, crossFlatIndex_wrapped.2.1]
    decide
  have hprec : pairPrecedes (0, 1) (62449, 99771) := Or.inl (by decide)
  refine ⟨by decide, hprec, hnot, ?_, crossFlatIndex_wrapped.2.1, ?_⟩
  · rw [card_pairs_before (by decide) (by decide), crossIndex_closed (by decide)]
    decide
  · intro h
    exact hnot ((h 100000 0 1 62449 99771 (by decide) (by decide) (by decide)
      (by decide)).mpr hprec)

/-- C13, amended: the flat index follows the order (0,1), (0,2), (1,2), ... for
every `k` that the word sizes carry (with `IndexType` 32 bits wide:
`k(k-1)/2 ≤ 2^32`). For pairs `i < j < k` and `i' < j' < k`,
`index(i,j) < index(i',j')` exactly when `(i,j)` precedes `(i',j')`
lexicographically, and `index(i,j)` is the rank of `(i,j)`, the number of pairs
before it; for `k = 3` the pairs (0,1), (0,2), (1,2) get 0, 1, 2. -/
theorem crossVariable_index_lex_order (ws : WordSizes) (k i j i' j' : Nat)
    (hws : ws.carries k)
    (hij : i < j) (hjk : j < k) (hij' : i' < j') (hjk' : j' < k) :
    (crossFlatIndex ws k i j < crossFlatIndex ws k i' j' ↔ pairPrecedes (i, j) (i', j')) ∧
    crossFlatIndex ws k i j = ((pinPairs k).filter (fun p => pairPrecedes p (i, j))).card ∧
    (crossFlatIndex lp64 3 0 1 = 0 ∧ crossFlatIndex lp64 3 0 2 = 1 ∧
      crossFlatIndex lp64 3 1 2 = 2) := by
  rw [crossFlatIndex_eq_crossIndex hws hij hjk, crossFlatIndex_eq_crossIndex hws hij' hjk']
  exact ⟨crossIndex_lt_iff hij hjk hij' hjk', (card_pairs_before hij hjk).symm,
    by decide, by decide, by decide⟩

theorem crossVariable_index_lex_order_witness :
    (lp64.carries 3 ∧ 0 < 2 ∧ 2 < 3 ∧ 1 < 2) ∧
    (crossFlatIndex lp64 3 0 2 < crossFlatIndex lp64 3 1 2 ↔ pairPrecedes (0, 2) (1, 2)) ∧
    crossFlatIndex lp64 3 0 2 = ((pinPairs 3).filter (fun p => pairPrecedes p (0, 2))).card ∧
    (crossFlatIndex lp64 3 0 1 = 0 ∧ crossFlatIndex lp64 3 0 2 = 1 ∧
      crossFlatIndex lp64 3 1 2 = 2) :=
  ⟨by decide,
    crossVariable_index_lex_order lp64 3 0 2 1 2 (by decide) (by decide) (by decide)
      (by decide) (by decide)⟩

end MagicalFlow
